import Mathlib

/-!
Verification development for the retrieval/classification core of the
qiyas repository (Backend/Source/Services).  Text is modelled as
`List Char` (Python `str`), machine floats as exact rationals `ℚ`
(reals `ℝ` where a square root occurs), Python dicts keyed by strings
as insertion-ordered association lists, and the fallible external
collaborators (vector store, embedding provider) as explicit
`Except`/input parameters.  Every definition is translated from the
Python source; definitions whose doc comment says "spec side" restate
a sentence of the specification for comparison with the source
translation.
-/

/-- Python `str.isspace`-style whitespace test used by `str.strip`;
restricted to the four ASCII whitespace characters that occur in the
chunker's separators (`Char.isWhitespace` covers exactly these). -/
def isWS (c : Char) : Bool := c.isWhitespace

/-- Right side of Python `str.strip()`: drop trailing whitespace. -/
def stripRight (l : List Char) : List Char :=
  (l.reverse.dropWhile isWS).reverse

/-- Python `str.strip()`: drop leading and trailing whitespace. -/
def pyStrip (l : List Char) : List Char :=
  (stripRight l).dropWhile isWS

/-- Does the second list start with the first one?  (Helper for the
embedding of Python `str.split`.) -/
def leadsWith : List Char → List Char → Bool
  | [], _ => true
  | _ :: _, [] => false
  | p :: ps, c :: cs => p == c && leadsWith ps cs

/-- Embedding of Python `str.split(sep)` for a non-empty separator,
written with an explicit fuel argument so that it is structurally
recursive; each step consumes at least one character, so fuel equal to
the text length is always sufficient (the fuel-0 fallback is then
unreachable). -/
def splitOnFuel (sep : List Char) : Nat → List Char → List Char → List (List Char)
  | _, [], acc => [acc.reverse]
  | 0, t, acc => [acc.reverse ++ t]
  | fuel + 1, c :: rest, acc =>
    if sep ≠ [] ∧ leadsWith sep (c :: rest) then
      acc.reverse :: splitOnFuel sep fuel (List.drop (sep.length - 1) rest) []
    else
      splitOnFuel sep fuel rest (c :: acc)

/-- Python `text.split(sep)` (non-empty `sep`). -/
def splitOnL (sep text : List Char) : List (List Char) :=
  splitOnFuel sep text.length text []

/-- The hard-slice fallback loop of `IngestionService.chunk_text`
(`while start < len(text): append text[start:start+chunk_size];
start += chunk_size - overlap`), with an explicit fuel.  When the
stride `chunk_size - overlap` is positive, fuel `text.length` is
sufficient and the loop terminates (claim C10); chunks are tagged
`true` to record that they come from the hard-slice fallback. -/
def hardSliceFuel (cs stride : Nat) (t : List Char) :
    Nat → Nat → List (Bool × List Char)
  | 0, _ => []
  | fuel + 1, start =>
    if start < t.length then
      (true, (t.drop start).take cs) :: hardSliceFuel cs stride t fuel (start + stride)
    else []

/-- The hard-slice fallback, run with its sufficient fuel. -/
def hardSlice (cs ov : Nat) (t : List Char) : List (Bool × List Char) :=
  hardSliceFuel cs (cs - ov) t t.length 0

/-- The greedy packing loop inside `split_text_recursive`: fold the
split pieces into a running buffer `current`, flushing
`current.strip()` whenever adding the next piece (plus separator)
would overflow `chunk_size`; a piece longer than `chunk_size` is
handed to `recurBig` (the recursive call at the next finer separator
level).  Packed chunks are tagged `false` (not hard-slice). -/
def packPieces (cs : Nat) (sep : List Char)
    (recurBig : List Char → List (Bool × List Char)) :
    List (List Char) → List Char → List (Bool × List Char)
  | [], current =>
    if current = [] then [] else [(false, pyStrip current)]
  | s :: ss, current =>
    if current.length + s.length + sep.length ≤ cs then
      packPieces cs sep recurBig ss (current ++ s ++ sep)
    else
      (if current = [] then [] else [(false, pyStrip current)]) ++
      (if cs < s.length then
        recurBig s ++ packPieces cs sep recurBig ss []
      else
        packPieces cs sep recurBig ss (s ++ sep))

/-- `split_text_recursive(text, separators)` from
`IngestionService.chunk_text`: with no separators left, hard-slice;
otherwise split on the first separator and greedily pack. -/
def splitTextRec (cs ov : Nat) : List (List Char) → List Char → List (Bool × List Char)
  | [], t => hardSlice cs ov t
  | sep :: rest, t =>
    packPieces cs sep (fun s => splitTextRec cs ov rest s) (splitOnL sep t) []

/-- The separator ladder of `chunk_text`:
paragraph break, line break, period+space, space. -/
def chunkSeparators : List (List Char) :=
  [['\n', '\n'], ['\n'], ['.', ' '], [' ']]

/-- `text.replace('\r', '')`. -/
def removeCR (t : List Char) : List Char := t.filter (fun c => c ≠ '\r')

/-- `IngestionService.chunk_text(text, chunk_size, overlap)`, with each
chunk tagged by whether it was produced by the hard-slice fallback
(`true`) or by greedy packing (`false`).  The tag is instrumentation
only; the Python function returns the untagged texts
(`chunk_text`). -/
def chunkTextT (text : List Char) (cs ov : Nat) : List (Bool × List Char) :=
  if text = [] then [] else splitTextRec cs ov chunkSeparators (removeCR text)

/-- `IngestionService.chunk_text` as in the source (untagged). -/
def chunk_text (text : List Char) (cs ov : Nat) : List (List Char) :=
  (chunkTextT text cs ov).map Prod.snd

/-- `split_text_recursive` where every hard-slice loop is run on the
common fuel `F` instead of the slice's own text length: used to state
claim C10 (the loop stabilises once the fuel reaches the input
length). -/
def splitTextRecFuel (cs ov F : Nat) : List (List Char) → List Char → List (Bool × List Char)
  | [], t => hardSliceFuel cs (cs - ov) t F 0
  | sep :: rest, t =>
    packPieces cs sep (fun s => splitTextRecFuel cs ov F rest s) (splitOnL sep t) []

/-- `chunk_text` with every hard-slice loop bounded by fuel `F`. -/
def chunkTextFuel (text : List Char) (cs ov F : Nat) : List (Bool × List Char) :=
  if text = [] then [] else splitTextRecFuel cs ov F chunkSeparators (removeCR text)

/-! ## KnowledgeBaseService._rrf_merge (Reciprocal Rank Fusion)

The Python `scores` dict (string key to float score, insertion
ordered) is modelled as an insertion-ordered association list
`List (String × ℚ)`; the metadata and document maps of `_rrf_merge`
only carry payloads along and do not influence ordering, so the model
projects the merge to ids and scores. -/

/-- `if doc_id not in scores: scores[doc_id] = 0; scores[doc_id] += v`. -/
def rrfBump (A : List (String × ℚ)) (id : String) (v : ℚ) : List (String × ℚ) :=
  if id ∈ A.map Prod.fst then
    A.map (fun p => if p.1 = id then (p.1, p.2 + v) else p)
  else A ++ [(id, v)]

/-- `for rank, doc_id in enumerate(ids): scores[doc_id] += 1 / (k + rank + 1)`,
starting at rank `r`. -/
def rrfAdd (k : Nat) : List (String × ℚ) → List String → Nat → List (String × ℚ)
  | A, [], _ => A
  | A, id :: rest, r =>
    rrfAdd k (rrfBump A id (1 / ((k : ℚ) + r + 1))) rest (r + 1)

/-- The accumulated score dict of `_rrf_merge`: semantic list first,
then lexical list. -/
def rrfScores (sem lex : List String) (k : Nat) : List (String × ℚ) :=
  rrfAdd k (rrfAdd k [] sem 0) lex 0

/-- `sorted(scores.keys(), key=lambda x: scores[x], reverse=True)[:limit]`:
Python `sorted` is stable, and `reverse=True` keeps ties in input
(first-seen) order, which `List.insertionSort` with the non-strict
descending relation reproduces. -/
def rrf_merge (sem lex : List String) (limit k : Nat) : List String :=
  (((rrfScores sem lex k).insertionSort (fun a b => b.2 ≤ a.2)).map Prod.fst).take limit

/-- Spec side (claim C3): the distinct chunk ids in first-seen order,
semantic list before lexical list. -/
def firstSeen (l : List String) : List String :=
  l.foldl (fun ks x => if x ∈ ks then ks else ks ++ [x]) []

/-- Spec side (claim C3): the total contribution `1 / (k + r + 1)` of a
list to one id's score, `r` being the 0-based rank in that list. -/
def rrfContrib (k : Nat) : List String → Nat → String → ℚ
  | [], _, _ => 0
  | x :: rest, r, id =>
    (if x = id then 1 / ((k : ℚ) + r + 1) else 0) + rrfContrib k rest (r + 1) id

/-- Spec side (claim C3): the RRF score of an id, contributions of the
two lists accumulating additively. -/
def rrfSpecScore (sem lex : List String) (k : Nat) (id : String) : ℚ :=
  rrfContrib k sem 0 id + rrfContrib k lex 0 id

/-- Spec side (claim C3): distinct ids in first-seen order, stably
sorted by accumulated score descending, truncated to `limit`. -/
def rrfSpecMerge (sem lex : List String) (limit k : Nat) : List String :=
  ((((firstSeen (sem ++ lex)).map (fun id => (id, rrfSpecScore sem lex k id))).insertionSort
    (fun a b => b.2 ≤ a.2)).map Prod.fst).take limit

/-! ## KnowledgeBaseService.search_exact / search_hybrid

The ChromaDB collection calls are the fallible collaborators: the
lexical `collection.get` is one `Except` value, and `self.query`
(semantic search) is a function from the requested result count to an
`Except` value, since `search_hybrid` invokes it with `n_results * 2`
in the `try` block and with `n_results` in its `except` fallback.
Results are projected to their id lists. -/

/-- `search_exact`: returns the fetched ids, and on any exception logs
and returns the empty result (`{"ids": [], ...}`). -/
def search_exact (lexFetch : Except String (List String)) : List String :=
  match lexFetch with
  | .ok ids => ids
  | .error _ => []

/-- `search_hybrid`: semantic query with `n_results * 2`, lexical
`search_exact`, RRF merge with `k = 60`; on an exception inside the
`try` block it returns `self.query(query_text, n_results)` — an
uncaught call whose own failure escapes to the caller. -/
def search_hybrid (semQuery : Nat → Except String (List String))
    (lexFetch : Except String (List String)) (n : Nat) :
    Except String (List String) :=
  match semQuery (n * 2) with
  | .ok sem => .ok (rrf_merge sem (search_exact lexFetch) n 60)
  | .error _ => semQuery n

/-! ## KnowledgeBaseService.get_neighbors -/

/-- One record of the main ChromaDB collection as `get_neighbors` sees
it: `source` and `chunk_index` metadata plus the document text. -/
structure StoredChunk where
  source : String
  idx : ℤ
  text : String
deriving DecidableEq, Repr

/-- `list(range(start, end + 1))` over `ℤ`. -/
def targetIndices (start fin : ℤ) : List ℤ :=
  (List.range (fin + 1 - start).toNat).map (fun n : ℕ => start + (n : ℤ))

/-- `get_neighbors(filename, index, window)`: fetch chunks whose
`source` matches and whose `chunk_index` is in the target list, then
sort by `chunk_index` (Python `sorted`, stable ascending) and return
the document texts.  The store is a list in arbitrary order (the
vector store guarantees no order). -/
def get_neighbors (store : List StoredChunk) (filename : String)
    (index window : ℤ) : List String :=
  ((store.filter (fun c =>
      decide (c.source = filename ∧ c.idx ∈ targetIndices (max 0 (index - window)) (index + window)))).insertionSort
    (fun a b => a.idx ≤ b.idx)).map StoredChunk.text

/-- Spec side (claim C6): the stored chunks of `filename` whose index
lies in the closed interval, ascending by index. -/
def neighborsSpec (store : List StoredChunk) (filename : String)
    (index window : ℤ) : List String :=
  ((store.filter (fun c =>
      decide (c.source = filename ∧ max 0 (index - window) ≤ c.idx ∧ c.idx ≤ index + window))).insertionSort
    (fun a b => a.idx ≤ b.idx)).map StoredChunk.text

/-! ## IngestionService.ingest_file / vector-store upsert (claim C7)

The main collection is a list of records; `upsert` is ChromaDB's
insert-or-replace by id.  `ingest_file` uploads chunk `j` with id
`f"{file_path.name}_chunk_{j}"` and metadata
`{"source": name, "chunk_index": j}` (batch size 1 collapses to one
upsert per chunk; the success path is modelled). -/

structure KBRecord where
  id : String
  text : String
  source : String
  idx : Nat
deriving DecidableEq, Repr

/-- ChromaDB `upsert` for one record: replace the record with this id
if present, else append. -/
def upsertRecord (store : List KBRecord) (r : KBRecord) : List KBRecord :=
  if store.any (fun x => x.id == r.id) then
    store.map (fun x => if x.id = r.id then r else x)
  else store ++ [r]

/-- The chunk id `ingest_file` generates for chunk `j` of `name`. -/
def chunkId (name : String) (j : Nat) : String :=
  name ++ "_chunk_" ++ toString j

/-- The upsert loop of `ingest_file`, from chunk index `j` on. -/
def ingestChunksFrom (name : String) : List KBRecord → Nat → List String → List KBRecord
  | store, _, [] => store
  | store, j, t :: ts =>
    ingestChunksFrom name (upsertRecord store ⟨chunkId name j, t, name, j⟩) (j + 1) ts

/-- `ingest_file`: upsert every chunk of `name` into the store. -/
def ingest_file (store : List KBRecord) (name : String) (chunks : List String) : List KBRecord :=
  ingestChunksFrom name store 0 chunks

/-- First-match lookup of a record text by id. -/
def lookupText : List KBRecord → String → Option String
  | [], _ => none
  | r :: rest, i => if r.id = i then some r.text else lookupText rest i

/-- Is a record with this id present? -/
def containsId (store : List KBRecord) (i : String) : Bool :=
  store.any (fun x => x.id == i)

/-! ## KnowledgeBaseService.add_session_document (claim C7)

Session chunking is the inline loop `start = 0; while start < len:
chunks.append(text[start:start+1000]); start += 900`, and the id of
chunk `i` is `f"sess_{conversation_id}_{i}_{os.urandom(4).hex()}"` —
the fresh random hex suffix is modelled as an input list `rands`, one
entry per chunk. -/

structure SessRecord where
  id : String
  text : String
  convId : Nat
  source : String
  idx : Nat
deriving DecidableEq, Repr

/-- The session chunking loop (chunk size 1000, overlap 100, hence
stride 900), with fuel `t.length` which is always sufficient. -/
def sessionChunksFuel (t : List Char) : Nat → Nat → List (List Char)
  | 0, _ => []
  | fuel + 1, start =>
    if start < t.length then
      (t.drop start).take 1000 :: sessionChunksFuel t fuel (start + 900)
    else []

/-- The chunk list built by `add_session_document`. -/
def sessionChunks (t : List Char) : List (List Char) :=
  sessionChunksFuel t t.length 0

/-- The session chunk id: conversation id, chunk index, random hex. -/
def sessId (cid i : Nat) (hex : String) : String :=
  "sess_" ++ toString cid ++ "_" ++ toString i ++ "_" ++ hex

/-- ChromaDB `upsert` on the session collection. -/
def upsertSess (store : List SessRecord) (r : SessRecord) : List SessRecord :=
  if store.any (fun x => x.id == r.id) then
    store.map (fun x => if x.id = r.id then r else x)
  else store ++ [r]

/-- The upsert loop of `add_session_document` over chunks and their
random id suffixes. -/
def addSessGo (cid : Nat) (filename : String) :
    List SessRecord → Nat → List (List Char) → List String → List SessRecord
  | store, _, [], _ => store
  | store, _, _ :: _, [] => store
  | store, i, c :: cs, h :: hs =>
    addSessGo cid filename
      (upsertSess store ⟨sessId cid i h, String.mk c, cid, filename, i⟩) (i + 1) cs hs

/-- `add_session_document(text, conversation_id, filename)` with the
per-chunk random hex strings supplied in `rands`. -/
def add_session_document (store : List SessRecord) (text : List Char)
    (cid : Nat) (filename : String) (rands : List String) : List SessRecord :=
  addSessGo cid filename store 0 (sessionChunks text) rands

/-! ## AIService.analyze_document_for_standard (claims C2, C5, C8)

The network-dependent inputs of the cascade are parameters of the
model: `hint` is the Tier-1 filename hint (the regex scan of the
filename, `None` when no known standard id occurs), and `scores` is
the list of `(standard_id, cosine_similarity)` pairs the Tier-2 loop
iterates over, in `STANDARD_DESCRIPTIONS` insertion order.  The
`reasoning` log string of the result dict is not modelled.  Tier 3
(the LLM fallback) is represented by the `tier3` outcome: the cascade
hands over to the language model and nothing further is decided
here. -/

/-- The spec's confidence vocabulary
(`confidence: one of high, medium, low, none`). -/
inductive Confidence
  | high
  | medium
  | low
  | cnone
deriving DecidableEq, Repr

/-- The classifier result dict (without the `reasoning` log string). -/
structure ClassificationResult where
  standard_id : Option String
  confidence : Confidence
  tier : Nat
deriving DecidableEq, Repr

/-- Outcome of the deterministic part of the cascade: a returned
result, or fall-through to the Tier-3 LLM analysis. -/
inductive AnalyzeOutcome
  | done (r : ClassificationResult)
  | tier3
deriving DecidableEq, Repr

/-- The Tier-2 best/second scan:
`if score > best_score: second, best, match = best, score, id
elif score > second_best_score: second = score`. -/
def bestTwoGo : List (String × ℚ) → Option String × ℚ × ℚ → Option String × ℚ × ℚ
  | [], st => st
  | (id, s) :: rest, (bm, best, second) =>
    if best < s then bestTwoGo rest (some id, s, best)
    else if second < s then bestTwoGo rest (bm, best, s)
    else bestTwoGo rest (bm, best, second)

/-- `best_match, best_score, second_best_score` after the Tier-2 loop
(initial values `None, -1, -1`). -/
def bestTwo (scores : List (String × ℚ)) : Option String × ℚ × ℚ :=
  bestTwoGo scores (none, -1, -1)

/-- `best_score` after the filename-confirmation boost:
`if filename_hint and filename_hint == best_match: best_score += 0.08`. -/
def boostedBest (scores : List (String × ℚ)) (hint : Option String) : ℚ :=
  match hint, (bestTwo scores).1 with
  | some h, some b => if h = b then (bestTwo scores).2.1 + 0.08 else (bestTwo scores).2.1
  | _, _ => (bestTwo scores).2.1

/-- `confidence_margin = best_score - second_best_score` (computed on
the raw scores, before the boost). -/
def rawMargin (scores : List (String × ℚ)) : ℚ :=
  (bestTwo scores).2.1 - (bestTwo scores).2.2

/-- The Tier-2 confidence ladder on the (possibly boosted) best score
and the raw margin; `none` means fall-through to Tier 3. -/
def confLabel (b m : ℚ) : Option Confidence :=
  if 0.82 < b ∨ (0.78 < b ∧ 0.05 < m) then some .high
  else if 0.72 < b ∨ (0.68 < b ∧ 0.03 < m) then some .medium
  else if 0.60 < b then some .low
  else none

/-- The confidence the Tier-2 stage assigns, if any. -/
def tier2Conf (scores : List (String × ℚ)) (hint : Option String) : Option Confidence :=
  confLabel (boostedBest scores hint) (rawMargin scores)

/-- The Tier-2 stage: on a confidence assignment return
`{standard_id: best_match, confidence, tier: 2}`, else fall through. -/
def tier2 (scores : List (String × ℚ)) (hint : Option String) : Option ClassificationResult :=
  match tier2Conf scores hint with
  | some c => some ⟨(bestTwo scores).1, c, 2⟩
  | none => none

/-- `analyze_document_for_standard`: the Tier-0 input guard
(`if not doc_text or len(doc_text.strip()) < 50`) returns
`{standard_id: None, confidence: "low", tier: 0}`; otherwise Tier 2
runs on the similarity scores and either terminates with `tier = 2`
or the cascade falls through to the Tier-3 LLM analysis. -/
def analyze_document_for_standard (doc : List Char) (hint : Option String)
    (scores : List (String × ℚ)) : AnalyzeOutcome :=
  if doc = [] ∨ (pyStrip doc).length < 50 then
    .done ⟨none, .low, 0⟩
  else
    match tier2 scores hint with
    | some r => .done r
    | none => .tier3

/-- Rank of a Tier-2 confidence assignment in the spec ordering
`none < low < medium < high`. -/
def confRank : Option Confidence → Nat
  | none => 0
  | some .cnone => 0
  | some .low => 1
  | some .medium => 2
  | some .high => 3

/-! ## AIService.cosine_similarity (claim C9)

Vectors are lists of exact rationals; `np.dot` and
`np.linalg.norm` (the Euclidean norm, a real square root) are modelled
over `ℝ`. -/

/-- `np.dot(a, b)` for equal-length vectors. -/
def dotL : List ℚ → List ℚ → ℚ
  | x :: xs, y :: ys => x * y + dotL xs ys
  | _, _ => 0

/-- Sum of squares of a vector. -/
def sumSq (v : List ℚ) : ℚ := dotL v v

/-- `np.linalg.norm(v)`: the Euclidean norm. -/
noncomputable def npNorm (v : List ℚ) : ℝ :=
  Real.sqrt ((sumSq v : ℚ) : ℝ)

open scoped Classical in
/-- `cosine_similarity(a, b)`: `0.0` when either norm is zero, else
`np.dot(a, b) / (norm_a * norm_b)`. -/
noncomputable def cosine_similarity (a b : List ℚ) : ℝ :=
  if npNorm a = 0 ∨ npNorm b = 0 then 0
  else ((dotL a b : ℚ) : ℝ) / (npNorm a * npNorm b)

/-- First-match lookup in the score dict, 0 when absent (Python dict
access after the `not in` guard of `_rrf_merge`). -/
def lookupScore : List (String × ℚ) → String → ℚ
  | [], _ => 0
  | p :: rest, id => if p.1 = id then p.2 else lookupScore rest id

/-! ## Order instances for the Python `sorted` model -/

instance : IsTotal StoredChunk (fun a b => a.idx ≤ b.idx) :=
  ⟨fun a b => le_total a.idx b.idx⟩

instance : IsTrans StoredChunk (fun a b => a.idx ≤ b.idx) :=
  ⟨fun _ _ _ h1 h2 => le_trans h1 h2⟩

instance : IsTotal (String × ℚ) (fun a b => b.2 ≤ a.2) :=
  ⟨fun a b => (le_total b.2 a.2).elim Or.inl Or.inr⟩

instance : IsTrans (String × ℚ) (fun a b => b.2 ≤ a.2) :=
  ⟨fun _ _ _ h1 h2 => le_trans h2 h1⟩
/-! ## Lemmas and claim theorems -/

/-- Stripping only shortens a string. -/
theorem stripRight_length_le (l : List Char) : (stripRight l).length ≤ l.length := by
  unfold stripRight
  rw [List.length_reverse]
  calc (l.reverse.dropWhile isWS).length ≤ l.reverse.length :=
        (List.dropWhile_sublist _).length_le
    _ = l.length := List.length_reverse l

/-- Stripping only shortens a string. -/
theorem pyStrip_length_le (l : List Char) : (pyStrip l).length ≤ l.length := by
  unfold pyStrip
  exact le_trans ((List.dropWhile_sublist _).length_le) (stripRight_length_le l)

/-- Claim C8: the Tier-2 confidence assignment is monotone in the best
score: for fixed margin, a larger (boosted) best score never yields a
smaller confidence in the ordering none < low < medium < high. -/
theorem tier2_label_monotone (m b1 b2 : ℚ) (h : b1 ≤ b2) :
    confRank (confLabel b1 m) ≤ confRank (confLabel b2 m) := by
  unfold confLabel
  by_cases h1 : (0.82 : ℚ) < b1 ∨ ((0.78 : ℚ) < b1 ∧ (0.05 : ℚ) < m)
  · have h1' : (0.82 : ℚ) < b2 ∨ ((0.78 : ℚ) < b2 ∧ (0.05 : ℚ) < m) := by
      rcases h1 with h' | ⟨h', hm⟩
      · exact Or.inl (lt_of_lt_of_le h' h)
      · exact Or.inr ⟨lt_of_lt_of_le h' h, hm⟩
    rw [if_pos h1, if_pos h1']
  · rw [if_neg h1]
    by_cases h2 : (0.72 : ℚ) < b1 ∨ ((0.68 : ℚ) < b1 ∧ (0.03 : ℚ) < m)
    · have h2' : (0.72 : ℚ) < b2 ∨ ((0.68 : ℚ) < b2 ∧ (0.03 : ℚ) < m) := by
        rcases h2 with h' | ⟨h', hm⟩
        · exact Or.inl (lt_of_lt_of_le h' h)
        · exact Or.inr ⟨lt_of_lt_of_le h' h, hm⟩
      rw [if_pos h2]
      by_cases h1b : (0.82 : ℚ) < b2 ∨ ((0.78 : ℚ) < b2 ∧ (0.05 : ℚ) < m)
      · rw [if_pos h1b]; simp [confRank]
      · rw [if_neg h1b, if_pos h2']
    · rw [if_neg h2]
      by_cases h3 : (0.60 : ℚ) < b1
      · have h3' : (0.60 : ℚ) < b2 := lt_of_lt_of_le h3 h
        rw [if_pos h3]
        by_cases h1b : (0.82 : ℚ) < b2 ∨ ((0.78 : ℚ) < b2 ∧ (0.05 : ℚ) < m)
        · rw [if_pos h1b]; simp [confRank]
        · rw [if_neg h1b]
          by_cases h2b : (0.72 : ℚ) < b2 ∨ ((0.68 : ℚ) < b2 ∧ (0.03 : ℚ) < m)
          · rw [if_pos h2b]; simp [confRank]
          · rw [if_neg h2b, if_pos h3']
      · rw [if_neg h3]
        exact Nat.zero_le _

theorem tier2_label_monotone_witness :
    ((0 : ℚ) ≤ 1) ∧ confRank (confLabel 0 0) ≤ confRank (confLabel 1 0) :=
  ⟨by norm_num, tier2_label_monotone 0 0 1 (by norm_num)⟩

/-- Claim C2, counterexample: on the empty document the Tier-0 guard
returns confidence low (the string written by the source), not the
confidence value none that the claim states. -/
theorem tier0_returns_low_not_none :
    analyze_document_for_standard [] none [] =
      .done ⟨none, Confidence.low, 0⟩ ∧ Confidence.low ≠ Confidence.cnone := by
  constructor
  · rfl
  · decide

/-- Claim C2, amended: for every document that is empty or shorter
than 50 characters, the classifier terminates at Tier 0 with no
standard id, confidence low, and tier 0 (the guard tests the stripped
length, which is at most the raw length). -/
theorem tier0_guard (doc : List Char) (hint : Option String)
    (scores : List (String × ℚ)) (h : doc = [] ∨ doc.length < 50) :
    analyze_document_for_standard doc hint scores =
      .done ⟨none, Confidence.low, 0⟩ := by
  unfold analyze_document_for_standard
  rw [if_pos]
  rcases h with h | h
  · exact Or.inl h
  · exact Or.inr (lt_of_le_of_lt (pyStrip_length_le doc) h)

theorem tier0_guard_witness :
    (("ab".toList = [] ∨ ("ab".toList).length < 50)) ∧
    analyze_document_for_standard ("ab".toList) none [] =
      .done ⟨none, Confidence.low, 0⟩ :=
  ⟨Or.inr (by decide), tier0_guard ("ab".toList) none [] (Or.inr (by decide))⟩

/-- Claim C1, evaluation at the failing input: when the semantic
sub-search raises on both of its invocations, search_hybrid propagates
the error to its caller (the except-branch fallback re-invokes the
failing semantic query), both when the lexical fetch succeeded and
when it failed too; only an internal lexical failure degrades to
semantic-only results as the claim describes. -/
theorem search_hybrid_failure_behavior :
    search_hybrid (fun _ => .error ("embedding provider down")) (.ok [("B")]) 5 =
      .error ("embedding provider down") ∧
    search_hybrid (fun _ => .ok [("A")]) (.error ("lexical scan failed")) 5 =
      .ok [("A")] := by
  constructor
  · rfl
  · rfl

/-- Claim C7, counterexample: adding the same session document twice
for the same conversation and filename produces two records with the
same source and chunk_index 0 but different ids, because the session
chunk id embeds the random hex suffix; duplicates accumulate instead
of being replaced. -/
theorem session_ingest_duplicates :
    add_session_document
        (add_session_document [] ("t1".toList) 1 ("f.txt") [("0a0a0a0a")])
        ("t2".toList) 1 ("f.txt") [("0b0b0b0b")] =
      [⟨sessId 1 0 ("0a0a0a0a"), "t1", 1, "f.txt", 0⟩,
       ⟨sessId 1 0 ("0b0b0b0b"), "t2", 1, "f.txt", 0⟩] ∧
    sessId 1 0 ("0a0a0a0a") ≠ sessId 1 0 ("0b0b0b0b") := by
  constructor
  · rfl
  · decide

/-- A sum of squares of rationals is non-negative. -/
theorem sumSq_nonneg (v : List ℚ) : 0 ≤ sumSq v := by
  induction v with
  | nil => simp [sumSq, dotL]
  | cons x xs ih =>
    have hx := mul_self_nonneg x
    have : sumSq (x :: xs) = x * x + sumSq xs := by simp [sumSq, dotL]
    rw [this]
    linarith

theorem npNorm_eq_zero_iff (v : List ℚ) : npNorm v = 0 ↔ sumSq v = 0 := by
  unfold npNorm
  rw [Real.sqrt_eq_zero']
  constructor
  · intro h
    have h0 : (0 : ℝ) ≤ ((sumSq v : ℚ) : ℝ) := by exact_mod_cast sumSq_nonneg v
    have : ((sumSq v : ℚ) : ℝ) = 0 := le_antisymm h h0
    exact_mod_cast this
  · intro h
    rw [h]
    simp

/-- Claim C9: cosine_similarity is total and guarded. If either
vector has zero norm the result is exactly 0, and otherwise the result
is the dot product divided by the product of the two norms, whose
divisor is provably nonzero, so the division branch never divides by
zero (over the real-number model of float arithmetic there is no NaN
to produce). -/
theorem cosine_similarity_total (a b : List ℚ) :
    ((sumSq a = 0 ∨ sumSq b = 0) → cosine_similarity a b = 0) ∧
    (sumSq a ≠ 0 → sumSq b ≠ 0 →
      npNorm a * npNorm b ≠ 0 ∧
      cosine_similarity a b = ((dotL a b : ℚ) : ℝ) / (npNorm a * npNorm b)) := by
  constructor
  · intro h
    unfold cosine_similarity
    rw [if_pos]
    rcases h with h | h
    · exact Or.inl ((npNorm_eq_zero_iff a).mpr h)
    · exact Or.inr ((npNorm_eq_zero_iff b).mpr h)
  · intro ha hb
    have hna : npNorm a ≠ 0 := fun hh => ha ((npNorm_eq_zero_iff a).mp hh)
    have hnb : npNorm b ≠ 0 := fun hh => hb ((npNorm_eq_zero_iff b).mp hh)
    refine ⟨mul_ne_zero hna hnb, ?_⟩
    unfold cosine_similarity
    rw [if_neg]
    rintro (hh | hh)
    · exact hna hh
    · exact hnb hh

theorem cosine_similarity_total_witness :
    cosine_similarity [0] [1] = 0 ∧
    cosine_similarity [1] [2] = ((dotL [1] [2] : ℚ) : ℝ) / (npNorm [1] * npNorm [2]) := by
  constructor
  · exact (cosine_similarity_total [0] [1]).1 (Or.inl (by norm_num [sumSq, dotL]))
  · exact ((cosine_similarity_total [1] [2]).2
      (by norm_num [sumSq, dotL]) (by norm_num [sumSq, dotL])).2

/-- The confidence ladder of the Tier-2 stage, characterised as the
guarded iff-chain used by the specification. -/
theorem confLabel_spec (b m : ℚ) :
    (confLabel b m = some Confidence.high ↔
      (0.82 < b ∨ (0.78 < b ∧ 0.05 < m))) ∧
    (confLabel b m = some Confidence.medium ↔
      ¬(0.82 < b ∨ (0.78 < b ∧ 0.05 < m)) ∧ (0.72 < b ∨ (0.68 < b ∧ 0.03 < m))) ∧
    (confLabel b m = some Confidence.low ↔
      ¬(0.82 < b ∨ (0.78 < b ∧ 0.05 < m)) ∧ ¬(0.72 < b ∨ (0.68 < b ∧ 0.03 < m)) ∧
        0.60 < b) ∧
    (confLabel b m = none ↔
      ¬(0.82 < b ∨ (0.78 < b ∧ 0.05 < m)) ∧ ¬(0.72 < b ∨ (0.68 < b ∧ 0.03 < m)) ∧
        ¬(0.60 < b)) := by
  unfold confLabel
  split_ifs with h1 h2 h3 <;> simp_all

/-- Claim C5: in Tier 2, exactly 0.08 is added to the best similarity
score when the Tier-1 filename hint equals the best-matching standard
id; the confidence label is determined from the possibly boosted best
score b and the raw margin m by the guarded chain high iff b > 0.82 or
(b > 0.78 and m > 0.05), otherwise medium iff b > 0.72 or (b > 0.68
and m > 0.03), otherwise low iff b > 0.60, otherwise no Tier-2
confidence; on an assignment the result carries that confidence, the
best-matching id and tier 2, and otherwise the cascade falls through
to Tier 3. -/
theorem tier2_thresholds (scores : List (String × ℚ)) (hint : Option String) :
    (boostedBest scores hint =
      (if hint ≠ none ∧ hint = (bestTwo scores).1 then (bestTwo scores).2.1 + 0.08
       else (bestTwo scores).2.1)) ∧
    (rawMargin scores = (bestTwo scores).2.1 - (bestTwo scores).2.2) ∧
    (tier2Conf scores hint = some Confidence.high ↔
      (0.82 < boostedBest scores hint ∨
        (0.78 < boostedBest scores hint ∧ 0.05 < rawMargin scores))) ∧
    (tier2Conf scores hint = some Confidence.medium ↔
      ¬(0.82 < boostedBest scores hint ∨
          (0.78 < boostedBest scores hint ∧ 0.05 < rawMargin scores)) ∧
        (0.72 < boostedBest scores hint ∨
          (0.68 < boostedBest scores hint ∧ 0.03 < rawMargin scores))) ∧
    (tier2Conf scores hint = some Confidence.low ↔
      ¬(0.82 < boostedBest scores hint ∨
          (0.78 < boostedBest scores hint ∧ 0.05 < rawMargin scores)) ∧
        ¬(0.72 < boostedBest scores hint ∨
          (0.68 < boostedBest scores hint ∧ 0.03 < rawMargin scores)) ∧
        0.60 < boostedBest scores hint) ∧
    (∀ c, tier2Conf scores hint = some c →
      tier2 scores hint = some ⟨(bestTwo scores).1, c, 2⟩) ∧
    (tier2Conf scores hint = none → tier2 scores hint = none) ∧
    (∀ doc r, ¬(doc = [] ∨ (pyStrip doc).length < 50) →
      tier2 scores hint = some r →
      analyze_document_for_standard doc hint scores = .done r) := by
  refine ⟨?_, rfl, (confLabel_spec _ _).1, (confLabel_spec _ _).2.1,
    (confLabel_spec _ _).2.2.1, ?_, ?_, ?_⟩
  · unfold boostedBest
    match hint, h1 : (bestTwo scores).1 with
    | some h, some b =>
      simp only [h1]
      by_cases hb : h = b <;> simp [hb]
    | some h, none => simp [h1]
    | none, some b => simp [h1]
    | none, none => simp [h1]
  · intro c hc
    unfold tier2
    rw [hc]
  · intro hc
    unfold tier2
    rw [hc]
  · intro doc r hdoc hr
    unfold analyze_document_for_standard
    rw [if_neg hdoc, hr]

theorem pyStrip_append_ws (l : List Char) (c : Char) (h : isWS c = true) :
    pyStrip (l ++ [c]) = pyStrip l := by
  unfold pyStrip stripRight
  simp [List.reverse_append, List.dropWhile_cons, h]

theorem hardSliceFuel_bound (cs stride : Nat) (t : List Char) :
    ∀ fuel start p, p ∈ hardSliceFuel cs stride t fuel start →
      p.1 = true ∧ p.2.length ≤ cs := by
  intro fuel
  induction fuel with
  | zero => intro start p hp; simp [hardSliceFuel] at hp
  | succ f ih =>
    intro start p hp
    unfold hardSliceFuel at hp
    by_cases hlt : start < t.length
    · rw [if_pos hlt] at hp
      rcases List.mem_cons.mp hp with rfl | hp'
      · refine ⟨rfl, ?_⟩
        simp [List.length_take]
      · exact ih (start + stride) p hp'
    · rw [if_neg hlt] at hp
      simp at hp

theorem packPieces_bound (cs : Nat) (sep : List Char)
    (rb : List Char → List (Bool × List Char))
    (hrb : ∀ s p, p ∈ rb s → p.2.length ≤ cs + 1 ∧ (p.1 = true → p.2.length ≤ cs))
    (hsep : ∀ s : List Char, s.length ≤ cs → (pyStrip (s ++ sep)).length ≤ cs + 1) :
    ∀ ss current, (pyStrip current).length ≤ cs + 1 →
      ∀ p ∈ packPieces cs sep rb ss current,
        p.2.length ≤ cs + 1 ∧ (p.1 = true → p.2.length ≤ cs) := by
  intro ss
  induction ss with
  | nil =>
    intro current hcur p hp
    unfold packPieces at hp
    by_cases hc : current = []
    · simp [hc] at hp
    · rw [if_neg hc] at hp
      rcases List.mem_singleton.mp hp with rfl
      exact ⟨hcur, by intro h; simp at h⟩
  | cons s ss ih =>
    intro current hcur p hp
    unfold packPieces at hp
    by_cases h1 : current.length + s.length + sep.length ≤ cs
    · rw [if_pos h1] at hp
      refine ih (current ++ s ++ sep) ?_ p hp
      calc (pyStrip (current ++ s ++ sep)).length
          ≤ (current ++ s ++ sep).length := pyStrip_length_le _
        _ = current.length + s.length + sep.length := by
              simp only [List.length_append]
        _ ≤ cs := h1
        _ ≤ cs + 1 := Nat.le_succ cs
    · rw [if_neg h1] at hp
      rcases List.mem_append.mp hp with hp1 | hp2
      · by_cases hc : current = []
        · simp [hc] at hp1
        · rw [if_neg hc] at hp1
          rcases List.mem_singleton.mp hp1 with rfl
          exact ⟨hcur, by intro h; simp at h⟩
      · by_cases h2 : cs < s.length
        · rw [if_pos h2] at hp2
          rcases List.mem_append.mp hp2 with hp3 | hp4
          · exact hrb s p hp3
          · refine ih [] ?_ p hp4
            simp [pyStrip, stripRight]
        · rw [if_neg h2] at hp2
          refine ih (s ++ sep) ?_ p hp2
          exact hsep s (Nat.le_of_not_lt h2)

theorem sepOk_chunkSeparators (cs : Nat) :
    ∀ sep ∈ chunkSeparators, ∀ s : List Char, s.length ≤ cs →
      (pyStrip (s ++ sep)).length ≤ cs + 1 := by
  intro sep hsep s hs
  simp [chunkSeparators] at hsep
  rcases hsep with rfl | rfl | rfl | rfl
  · rw [show s ++ ['\n', '\n'] = (s ++ ['\n']) ++ ['\n'] by simp,
      pyStrip_append_ws _ _ (by decide), pyStrip_append_ws _ _ (by decide)]
    exact le_trans (pyStrip_length_le s) (le_trans hs (Nat.le_succ cs))
  · rw [pyStrip_append_ws _ _ (by decide)]
    exact le_trans (pyStrip_length_le s) (le_trans hs (Nat.le_succ cs))
  · rw [show s ++ ['.', ' '] = (s ++ ['.']) ++ [' '] by simp,
      pyStrip_append_ws _ _ (by decide)]
    calc (pyStrip (s ++ ['.'])).length ≤ (s ++ ['.']).length := pyStrip_length_le _
      _ = s.length + 1 := by simp
      _ ≤ cs + 1 := by omega
  · rw [pyStrip_append_ws _ _ (by decide)]
    exact le_trans (pyStrip_length_le s) (le_trans hs (Nat.le_succ cs))

theorem splitTextRec_bound (cs ov : Nat) :
    ∀ seps : List (List Char),
      (∀ sep ∈ seps, ∀ s : List Char, s.length ≤ cs →
        (pyStrip (s ++ sep)).length ≤ cs + 1) →
      ∀ t p, p ∈ splitTextRec cs ov seps t →
        p.2.length ≤ cs + 1 ∧ (p.1 = true → p.2.length ≤ cs) := by
  intro seps
  induction seps with
  | nil =>
    intro _ t p hp
    unfold splitTextRec hardSlice at hp
    have h := hardSliceFuel_bound cs (cs - ov) t t.length 0 p hp
    exact ⟨le_trans h.2 (Nat.le_succ cs), fun _ => h.2⟩
  | cons sep rest ih =>
    intro hsep t p hp
    unfold splitTextRec at hp
    refine packPieces_bound cs sep _ ?_ (hsep sep (List.mem_cons_self _ _))
      (splitOnL sep t) [] ?_ p hp
    · intro s q hq
      exact ih (fun sp hm => hsep sp (List.mem_cons_of_mem _ hm)) s q hq
    · simp [pyStrip, stripRight]

/-- Claim C4, amended: every chunk produced by chunk_text has length
at most chunk_size + 1 (a packed chunk can keep one character of the
period-space separator after stripping), and every chunk produced by
the hard-slice fallback has length at most chunk_size. -/
theorem chunk_length_bound (text : List Char) (cs ov : Nat) :
    ∀ p ∈ chunkTextT text cs ov,
      p.2.length ≤ cs + 1 ∧ (p.1 = true → p.2.length ≤ cs) := by
  intro p hp
  unfold chunkTextT at hp
  by_cases ht : text = []
  · simp [ht] at hp
  · rw [if_neg ht] at hp
    exact splitTextRec_bound cs ov chunkSeparators (sepOk_chunkSeparators cs)
      (removeCR text) p hp

/-- Claim C4, counterexample: with chunk_size 5 and overlap 1 the
input text aaaaaa-period-space-bbbbb yields the greedily packed (not
hard-slice) chunk bbbbb-period of length 6 > chunk_size, refuting the
claimed chunk_size bound for non-hard-slice chunks. -/
theorem chunk_text_oversize :
    chunkTextT (("aaaaaa. bbbbb").toList) 5 1 =
      [(true, ("aaaaa").toList), (true, ("aa").toList), (false, ("bbbbb.").toList)] ∧
    (("bbbbb.").toList).length = 6 ∧ ¬((6 : Nat) ≤ 5) := by
  exact ⟨rfl, rfl, by decide⟩

theorem chunk_length_bound_witness :
    ((true, ("aaaaa").toList) ∈ chunkTextT (("aaaaaa. bbbbb").toList) 5 1) ∧
    (("aaaaa").toList).length ≤ 5 + 1 ∧
    ((true : Bool) = true → (("aaaaa").toList).length ≤ 5) := by
  refine ⟨by decide, ?_⟩
  exact chunk_length_bound (("aaaaaa. bbbbb").toList) 5 1
    ((true, ("aaaaa").toList)) (by decide)

theorem hardSliceFuel_stable (cs stride : Nat) (t : List Char) (hs : 0 < stride) :
    ∀ fuel start, t.length ≤ start + fuel →
      ∀ extra, hardSliceFuel cs stride t (fuel + extra) start =
        hardSliceFuel cs stride t fuel start := by
  intro fuel
  induction fuel with
  | zero =>
    intro start h extra
    cases extra with
    | zero => rfl
    | succ e =>
      rw [Nat.zero_add]
      unfold hardSliceFuel
      rw [if_neg (Nat.not_lt.mpr (by omega))]
  | succ f ih =>
    intro start h extra
    have hre : f + 1 + extra = (f + extra) + 1 := by omega
    rw [hre]
    show hardSliceFuel cs stride t ((f + extra) + 1) start =
      hardSliceFuel cs stride t (f + 1) start
    unfold hardSliceFuel
    by_cases hlt : start < t.length
    · rw [if_pos hlt, if_pos hlt]
      rw [ih (start + stride) (by omega) extra]
    · rw [if_neg hlt, if_neg hlt]

theorem hardSliceFuel_eq_hardSlice (cs ov F : Nat) (t : List Char)
    (h : ov < cs) (hF : t.length ≤ F) :
    hardSliceFuel cs (cs - ov) t F 0 = hardSlice cs ov t := by
  unfold hardSlice
  have hre : F = t.length + (F - t.length) := by omega
  rw [hre]
  exact hardSliceFuel_stable cs (cs - ov) t (by omega) t.length 0 (by omega) (F - t.length)

theorem splitOnFuel_piece_le (sep : List Char) :
    ∀ fuel t acc p, p ∈ splitOnFuel sep fuel t acc →
      p.length ≤ acc.length + t.length := by
  intro fuel
  induction fuel with
  | zero =>
    intro t acc p hp
    cases t with
    | nil =>
      rcases List.mem_singleton.mp hp with rfl
      simp
    | cons c rest =>
      rcases List.mem_singleton.mp hp with rfl
      simp
  | succ f ih =>
    intro t acc p hp
    cases t with
    | nil =>
      rcases List.mem_singleton.mp hp with rfl
      simp
    | cons c rest =>
      unfold splitOnFuel at hp
      by_cases hcond : sep ≠ [] ∧ leadsWith sep (c :: rest) = true
      · rw [if_pos hcond] at hp
        rcases List.mem_cons.mp hp with rfl | hp'
        · simp
        · have h2 := ih (List.drop (sep.length - 1) rest) [] p hp'
          simp [List.length_drop] at h2
          simp only [List.length_cons]
          omega
      · rw [if_neg hcond] at hp
        have h2 := ih rest (c :: acc) p hp
        simp only [List.length_cons] at h2
        simp only [List.length_cons]
        omega

theorem packPieces_congr (cs : Nat) (sep : List Char)
    (rb rb' : List Char → List (Bool × List Char)) :
    ∀ ss current, (∀ s ∈ ss, rb s = rb' s) →
      packPieces cs sep rb ss current = packPieces cs sep rb' ss current := by
  intro ss
  induction ss with
  | nil => intro current _; rfl
  | cons s ss ih =>
    intro current hss
    unfold packPieces
    by_cases h1 : current.length + s.length + sep.length ≤ cs
    · rw [if_pos h1, if_pos h1]
      exact ih _ (fun x hx => hss x (List.mem_cons_of_mem _ hx))
    · rw [if_neg h1, if_neg h1]
      congr 1
      by_cases h2 : cs < s.length
      · rw [if_pos h2, if_pos h2]
        rw [hss s (List.mem_cons_self _ _),
          ih [] (fun x hx => hss x (List.mem_cons_of_mem _ hx))]
      · rw [if_neg h2, if_neg h2]
        exact ih _ (fun x hx => hss x (List.mem_cons_of_mem _ hx))

theorem splitTextRecFuel_eq (cs ov F : Nat) (h : ov < cs) :
    ∀ seps t, t.length ≤ F →
      splitTextRecFuel cs ov F seps t = splitTextRec cs ov seps t := by
  intro seps
  induction seps with
  | nil =>
    intro t ht
    exact hardSliceFuel_eq_hardSlice cs ov F t h ht
  | cons sep rest ih =>
    intro t ht
    unfold splitTextRecFuel splitTextRec
    apply packPieces_congr
    intro s hs
    have hlen : s.length ≤ t.length := by
      have := splitOnFuel_piece_le sep t.length t [] s hs
      simpa using this
    exact ih s (le_trans hlen ht)

/-- Claim C10: for overlap < chunk_size, chunk_text terminates: the
separator recursion is structural, and the hard-slice loop advances by
the positive stride chunk_size - overlap, so running every hard-slice
loop with any fuel of at least the input length yields the same result
as the well-founded computation. -/
theorem chunk_text_terminates (text : List Char) (cs ov F : Nat)
    (h : ov < cs) (hF : text.length ≤ F) :
    chunkTextFuel text cs ov F = chunkTextT text cs ov := by
  unfold chunkTextFuel chunkTextT
  by_cases ht : text = []
  · rw [if_pos ht, if_pos ht]
  · rw [if_neg ht, if_neg ht]
    apply splitTextRecFuel_eq cs ov F h
    exact le_trans (List.Sublist.length_le (List.filter_sublist text)) hF

theorem chunk_text_terminates_witness :
    ((1 : Nat) < 5 ∧ ("ab".toList).length ≤ 2) ∧
    chunkTextFuel ("ab".toList) 5 1 2 = chunkTextT ("ab".toList) 5 1 :=
  ⟨⟨by decide, by decide⟩, chunk_text_terminates ("ab".toList) 5 1 2 (by decide) (by decide)⟩

theorem mem_targetIndices (s f j : ℤ) : j ∈ targetIndices s f ↔ s ≤ j ∧ j ≤ f := by
  unfold targetIndices
  simp only [List.mem_map, List.mem_range]
  constructor
  · rintro ⟨n, hn, rfl⟩
    omega
  · rintro ⟨h1, h2⟩
    exact ⟨(j - s).toNat, by omega, by omega⟩

/-- Claim C6: get_neighbors returns exactly the texts of the stored
chunks of the given source whose chunk_index lies in the closed
interval from max 0 (index - window) to index + window, sorted
ascending by chunk_index, with absent indices simply missing; in
particular a source with chunks at indices 0, 1, 2, 4 and a window of
1 around index 2 yields the texts of indices 1 and 2 in that order. -/
theorem get_neighbors_correct (store : List StoredChunk) (filename : String)
    (index window : ℤ) :
    get_neighbors store filename index window =
      neighborsSpec store filename index window ∧
    List.Sorted (fun a b : StoredChunk => a.idx ≤ b.idx)
      ((store.filter (fun c => decide (c.source = filename ∧
          max 0 (index - window) ≤ c.idx ∧ c.idx ≤ index + window))).insertionSort
        (fun a b => a.idx ≤ b.idx)) ∧
    get_neighbors
      [⟨("doc"), 2, ("c2")⟩, ⟨("doc"), 0, ("c0")⟩, ⟨("doc"), 4, ("c4")⟩,
       ⟨("doc"), 1, ("c1")⟩] ("doc") 2 1 = [("c1"), ("c2")] := by
  refine ⟨?_, List.sorted_insertionSort _ _, rfl⟩
  unfold get_neighbors neighborsSpec
  congr 2
  apply List.filter_congr
  intro c _
  rw [decide_eq_decide]
  exact and_congr_right (fun _ => mem_targetIndices _ _ _)

theorem rrfBump_keys (A : List (String × ℚ)) (id : String) (v : ℚ) :
    (rrfBump A id v).map Prod.fst =
      if id ∈ A.map Prod.fst then A.map Prod.fst else A.map Prod.fst ++ [id] := by
  unfold rrfBump
  by_cases h : id ∈ A.map Prod.fst
  · rw [if_pos h, if_pos h, List.map_map]
    apply List.map_congr_left
    intro p _
    by_cases hp : p.1 = id <;> simp [hp]
  · rw [if_neg h, if_neg h, List.map_append]
    rfl

theorem lookupScore_mapAdd (id : String) (v : ℚ) (j : String) :
    ∀ A : List (String × ℚ),
      lookupScore (A.map (fun p => if p.1 = id then (p.1, p.2 + v) else p)) j =
        if id = j ∧ id ∈ A.map Prod.fst then lookupScore A j + v
        else lookupScore A j := by
  intro A
  induction A with
  | nil => simp [lookupScore]
  | cons p rest ih =>
    by_cases hp : p.1 = id
    · simp only [List.map_cons, if_pos hp, lookupScore]
      by_cases hj : p.1 = j
      · rw [if_pos hj,
          if_pos ⟨hp.symm.trans hj, List.mem_cons.mpr (Or.inl hp.symm)⟩,
          if_pos hj]
      · have hij : ¬(id = j) := fun hh => hj (hp.trans hh)
        rw [if_neg hj, ih, if_neg (fun hc => hij hc.1),
          if_neg (fun hc : id = j ∧ id ∈ p.1 :: rest.map Prod.fst => hij hc.1),
          if_neg hj]
    · simp only [List.map_cons, if_neg hp, lookupScore]
      by_cases hj : p.1 = j
      · have hij : ¬(id = j) := fun hh => hp (hh ▸ hj)
        rw [if_pos hj, if_pos hj, if_neg (fun hc => hij hc.1)]
      · rw [if_neg hj, if_neg hj, ih]
        have hmem : (id ∈ (p :: rest).map Prod.fst) ↔ (id ∈ rest.map Prod.fst) := by
          simp [List.map_cons]
          intro hh
          exact absurd hh.symm hp
        by_cases hc : id = j ∧ id ∈ rest.map Prod.fst
        · rw [if_pos hc, if_pos ⟨hc.1, hmem.mpr hc.2⟩]
        · rw [if_neg hc, if_neg (fun hc2 => hc ⟨hc2.1, hmem.mp hc2.2⟩)]

theorem lookupScore_bump (A : List (String × ℚ)) (id : String) (v : ℚ) (j : String) :
    lookupScore (rrfBump A id v) j =
      lookupScore A j + (if id = j then v else 0) := by
  unfold rrfBump
  by_cases h : id ∈ A.map Prod.fst
  · rw [if_pos h, lookupScore_mapAdd]
    by_cases hj : id = j
    · rw [if_pos ⟨hj, h⟩, if_pos hj]
    · rw [if_neg (fun hc => hj hc.1), if_neg hj, add_zero]
  · rw [if_neg h]
    induction A with
    | nil =>
      by_cases hj : id = j <;> simp [lookupScore, hj]
    | cons p rest ih =>
      have h' : id ∉ rest.map Prod.fst := fun hh =>
        h (List.mem_cons.mpr (Or.inr hh))
      simp only [List.cons_append, lookupScore]
      by_cases hpj : p.1 = j
      · have hij : ¬(id = j) := fun hh => by
          refine h (List.mem_cons.mpr (Or.inl ?_))
          rw [hh, hpj]
        rw [if_pos hpj, if_pos hpj, if_neg hij, add_zero]
      · rw [if_neg hpj, if_neg hpj]
        simpa using ih h'

theorem rrfAdd_keys (k : Nat) :
    ∀ (ids : List String) (A : List (String × ℚ)) (r : Nat),
      (rrfAdd k A ids r).map Prod.fst =
        ids.foldl (fun ks x => if x ∈ ks then ks else ks ++ [x]) (A.map Prod.fst) := by
  intro ids
  induction ids with
  | nil => intro A r; rfl
  | cons id rest ih =>
    intro A r
    show (rrfAdd k (rrfBump A id (1 / ((k : ℚ) + r + 1))) rest (r + 1)).map Prod.fst = _
    rw [ih, rrfBump_keys]
    rfl

theorem rrfAdd_lookup (k : Nat) :
    ∀ (ids : List String) (A : List (String × ℚ)) (r : Nat) (j : String),
      lookupScore (rrfAdd k A ids r) j = lookupScore A j + rrfContrib k ids r j := by
  intro ids
  induction ids with
  | nil => intro A r j; simp [rrfAdd, rrfContrib]
  | cons id rest ih =>
    intro A r j
    show lookupScore (rrfAdd k (rrfBump A id (1 / ((k : ℚ) + r + 1))) rest (r + 1)) j = _
    rw [ih, lookupScore_bump]
    have hc : rrfContrib k (id :: rest) r j =
        (if id = j then 1 / ((k : ℚ) + r + 1) else 0) + rrfContrib k rest (r + 1) j := rfl
    rw [hc]
    ring

theorem foldl_firstSeen_nodup :
    ∀ (l : List String) (ks : List String), ks.Nodup →
      (l.foldl (fun ks x => if x ∈ ks then ks else ks ++ [x]) ks).Nodup := by
  intro l
  induction l with
  | nil => intro ks h; exact h
  | cons x rest ih =>
    intro ks h
    show (rest.foldl _ (if x ∈ ks then ks else ks ++ [x])).Nodup
    by_cases hx : x ∈ ks
    · rw [if_pos hx]; exact ih ks h
    · rw [if_neg hx]
      refine ih _ (List.nodup_append.mpr ⟨h, List.nodup_singleton x, ?_⟩)
      intro a ha hb
      rcases List.mem_singleton.mp hb with rfl
      exact hx ha

theorem assoc_reconstruct :
    ∀ A : List (String × ℚ), (A.map Prod.fst).Nodup →
      A = (A.map Prod.fst).map (fun j => (j, lookupScore A j)) := by
  intro A
  induction A with
  | nil => intro _; rfl
  | cons p rest ih =>
    intro h
    have h1 : p.1 ∉ rest.map Prod.fst := (List.nodup_cons.mp h).1
    have h2 : (rest.map Prod.fst).Nodup := (List.nodup_cons.mp h).2
    simp only [List.map_cons]
    congr 1
    · show p = (p.1, lookupScore (p :: rest) p.1)
      unfold lookupScore
      rw [if_pos rfl]
    · have hstep : ∀ j ∈ rest.map Prod.fst,
          ((fun j => (j, lookupScore (p :: rest) j)) j : String × ℚ) =
            (fun j => (j, lookupScore rest j)) j := by
        intro j hj
        have hjp : ¬(p.1 = j) := fun hh => h1 (hh ▸ hj)
        show (j, if p.1 = j then p.2 else lookupScore rest j) = (j, lookupScore rest j)
        rw [if_neg hjp]
      rw [List.map_congr_left hstep]
      exact ih h2

theorem rrfScores_eq_spec (sem lex : List String) (k : Nat) :
    rrfScores sem lex k =
      (firstSeen (sem ++ lex)).map (fun id => (id, rrfSpecScore sem lex k id)) := by
  have hkeys : (rrfScores sem lex k).map Prod.fst = firstSeen (sem ++ lex) := by
    unfold rrfScores firstSeen
    rw [rrfAdd_keys, rrfAdd_keys, List.foldl_append]
    rfl
  have hnd : ((rrfScores sem lex k).map Prod.fst).Nodup := by
    rw [hkeys]
    unfold firstSeen
    exact foldl_firstSeen_nodup _ [] List.nodup_nil
  have hlook : ∀ j, lookupScore (rrfScores sem lex k) j = rrfSpecScore sem lex k j := by
    intro j
    unfold rrfScores rrfSpecScore
    rw [rrfAdd_lookup, rrfAdd_lookup]
    simp [lookupScore]
  calc rrfScores sem lex k
      = ((rrfScores sem lex k).map Prod.fst).map
          (fun j => (j, lookupScore (rrfScores sem lex k) j)) :=
        assoc_reconstruct _ hnd
    _ = (firstSeen (sem ++ lex)).map (fun id => (id, rrfSpecScore sem lex k id)) := by
        rw [hkeys]
        exact List.map_congr_left (fun j _ => by rw [hlook j])

/-- Claim C3: _rrf_merge computes, for each list independently, the
contribution 1 / (k_rrf + rank + 1) of each 0-based rank to a running
score per chunk id, accumulating additively over both lists, and
returns the distinct ids in descending score order, ties kept in
stable first-seen order (semantic list before lexical), truncated to
the requested limit; concretely, semantic list A, B and lexical list
B, C with k_rrf = 1 fuse to B, A, C of length 3. -/
theorem rrf_merge_matches_spec (sem lex : List String) (limit k : Nat) :
    rrf_merge sem lex limit k = rrfSpecMerge sem lex limit k ∧
    List.Sorted (fun a b : String × ℚ => b.2 ≤ a.2)
      ((rrfScores sem lex k).insertionSort (fun a b => b.2 ≤ a.2)) ∧
    rrf_merge [("A"), ("B")] [("B"), ("C")] 3 1 = [("B"), ("A"), ("C")] := by
  refine ⟨?_, List.sorted_insertionSort _ _, ?_⟩
  · unfold rrf_merge rrfSpecMerge
    rw [rrfScores_eq_spec]
  · norm_num [rrf_merge, rrfScores, rrfAdd, rrfBump, lookupScore,
      List.insertionSort, List.orderedInsert]
    rw [if_neg (by decide : ¬(("A") : String) = ("B"))]
    norm_num

theorem tier2_thresholds_witness :
    tier2 [(("5.9.1"), (9 : ℚ)/10)] none =
      some ⟨some ("5.9.1"), Confidence.high, 2⟩ ∧
    analyze_document_for_standard (List.replicate 60 'a') none
      [(("5.9.1"), (9 : ℚ)/10)] = .done ⟨some ("5.9.1"), Confidence.high, 2⟩ := by
  have hconf : tier2Conf [(("5.9.1"), (9 : ℚ)/10)] none = some Confidence.high := by
    norm_num [tier2Conf, confLabel, boostedBest, rawMargin, bestTwo, bestTwoGo]
  have hbm : (bestTwo [(("5.9.1"), (9 : ℚ)/10)]).1 = some ("5.9.1") := by
    norm_num [bestTwo, bestTwoGo]
  have h1 := (tier2_thresholds [(("5.9.1"), (9 : ℚ)/10)] none).2.2.2.2.2.1
    Confidence.high hconf
  rw [hbm] at h1
  refine ⟨h1, ?_⟩
  exact (tier2_thresholds [(("5.9.1"), (9 : ℚ)/10)] none).2.2.2.2.2.2.2
    (List.replicate 60 'a') _ (by decide) h1

theorem lookupText_map_replace (r : KBRecord) (i : String) :
    ∀ s : List KBRecord,
      lookupText (s.map (fun x => if x.id = r.id then r else x)) i =
        if i = r.id ∧ containsId s r.id = true then some r.text
        else lookupText s i := by
  intro s
  induction s with
  | nil => simp [lookupText, containsId]
  | cons x rest ih =>
    by_cases hx : x.id = r.id
    · simp only [List.map_cons, if_pos hx, lookupText]
      have hcc : containsId (x :: rest) r.id = true := by
        simp [containsId, List.any_cons, hx]
      by_cases hi : r.id = i
      · rw [if_pos hi, if_pos ⟨hi.symm, hcc⟩]
      · have hi' : ¬(i = r.id) := fun hh => hi hh.symm
        have hxi : ¬(x.id = i) := fun hh => hi (hx ▸ hh)
        rw [if_neg hi, ih, if_neg (fun hc => hi' hc.1),
          if_neg (fun hc : i = r.id ∧ containsId (x :: rest) r.id = true => hi' hc.1),
          if_neg hxi]
    · simp only [List.map_cons, if_neg hx, lookupText]
      have hcc : containsId (x :: rest) r.id = containsId rest r.id := by
        simp [containsId, List.any_cons]
        intro hh
        exact absurd hh hx
      by_cases hxi : x.id = i
      · have hir : ¬(i = r.id) := fun hh => hx (hxi.trans hh)
        rw [if_pos hxi, if_pos hxi,
          if_neg (fun hc : i = r.id ∧ containsId (x :: rest) r.id = true => hir hc.1)]
      · rw [if_neg hxi, if_neg hxi, ih]
        by_cases hc : i = r.id ∧ containsId rest r.id = true
        · rw [if_pos hc, if_pos ⟨hc.1, by rw [hcc]; exact hc.2⟩]
        · rw [if_neg hc, if_neg (fun hc2 : i = r.id ∧ containsId (x :: rest) r.id = true =>
            hc ⟨hc2.1, by rw [← hcc]; exact hc2.2⟩)]

theorem lookupText_append_single (r : KBRecord) (i : String) :
    ∀ s : List KBRecord, s.any (fun x => x.id == r.id) = false →
      lookupText (s ++ [r]) i = if i = r.id then some r.text else lookupText s i := by
  intro s
  induction s with
  | nil =>
    intro _
    simp only [List.nil_append, lookupText]
    by_cases hi : r.id = i
    · rw [if_pos hi, if_pos hi.symm]
    · rw [if_neg hi, if_neg (fun hh => hi hh.symm)]
  | cons x rest ih =>
    intro h
    simp only [List.any_cons, Bool.or_eq_false_iff] at h
    simp only [List.cons_append, lookupText]
    by_cases hxi : x.id = i
    · have hir : ¬(i = r.id) := by
        rintro rfl
        have : x.id = r.id := hxi
        rw [← beq_iff_eq (a := x.id) (b := r.id)] at this
        rw [this] at h
        exact absurd h.1 (by simp)
      rw [if_pos hxi, if_pos hxi, if_neg hir]
    · rw [if_neg hxi, if_neg hxi]
      have h3 := ih (by simpa using h.2)
      simpa using h3

theorem lookupText_upsert (s : List KBRecord) (r : KBRecord) (i : String) :
    lookupText (upsertRecord s r) i =
      if i = r.id then some r.text else lookupText s i := by
  unfold upsertRecord
  by_cases h : s.any (fun x => x.id == r.id) = true
  · rw [if_pos h, lookupText_map_replace]
    by_cases hi : i = r.id
    · rw [if_pos ⟨hi, h⟩, if_pos hi]
    · rw [if_neg (fun hc => hi hc.1), if_neg hi]
  · rw [if_neg h]
    exact lookupText_append_single r i s (by simpa using h)

theorem length_upsert (s : List KBRecord) (r : KBRecord) :
    (upsertRecord s r).length =
      if containsId s r.id = true then s.length else s.length + 1 := by
  unfold upsertRecord containsId
  by_cases h : s.any (fun x => x.id == r.id) = true
  · rw [if_pos h, if_pos h, List.length_map]
  · rw [if_neg h, if_neg h, List.length_append]
    rfl

theorem containsId_upsert_self (s : List KBRecord) (r : KBRecord) :
    containsId (upsertRecord s r) r.id = true := by
  unfold upsertRecord containsId
  by_cases h : s.any (fun x => x.id == r.id) = true
  · rw [if_pos h, List.any_map]
    rw [List.any_eq_true] at h ⊢
    obtain ⟨x, hx, hbeq⟩ := h
    refine ⟨x, hx, ?_⟩
    simp only [Function.comp]
    have hxid : x.id = r.id := eq_of_beq hbeq
    rw [if_pos hxid]
    simp
  · rw [if_neg h, List.any_append]
    simp [List.any_cons]

theorem nodup_upsert (s : List KBRecord) (r : KBRecord)
    (h : (s.map (fun x => x.id)).Nodup) :
    ((upsertRecord s r).map (fun x => x.id)).Nodup := by
  unfold upsertRecord
  by_cases hc : s.any (fun x => x.id == r.id) = true
  · rw [if_pos hc, List.map_map]
    have hcg : ∀ x ∈ s,
        ((fun x : KBRecord => x.id) ∘ (fun x => if x.id = r.id then r else x)) x = x.id := by
      intro x _
      by_cases hx : x.id = r.id <;> simp [hx]
    rw [List.map_congr_left hcg]
    exact h
  · rw [if_neg hc, List.map_append]
    refine List.nodup_append.mpr ⟨h, List.nodup_singleton _, ?_⟩
    intro a ha hb
    rcases List.mem_singleton.mp hb with rfl
    rw [List.mem_map] at ha
    obtain ⟨x, hx, hxid⟩ := ha
    have hany : (s.any fun y => y.id == r.id) = true :=
      List.any_eq_true.mpr ⟨x, hx, beq_iff_eq.mpr hxid⟩
    exact absurd hany hc

/-- Claim C7, amended: main-collection ingestion via ingest_file is
idempotent per source and chunk index, because the generated chunk id
is the deterministic string built from the filename and index, so a
second ingest of the same pair upserts in place: the later text is the
one retrievable, the store does not grow, and no duplicate ids
accumulate. -/
theorem ingest_idempotent (store : List KBRecord) (name : String) (t1 t2 : String)
    (hnd : (store.map (fun x => x.id)).Nodup) :
    lookupText (ingest_file (ingest_file store name [t1]) name [t2]) (chunkId name 0) =
      some t2 ∧
    (ingest_file (ingest_file store name [t1]) name [t2]).length =
      (ingest_file store name [t1]).length ∧
    ((ingest_file (ingest_file store name [t1]) name [t2]).map (fun x => x.id)).Nodup := by
  have he : ∀ (st : List KBRecord) (t : String),
      ingest_file st name [t] = upsertRecord st ⟨chunkId name 0, t, name, 0⟩ := by
    intro st t
    rfl
  rw [he, he]
  refine ⟨?_, ?_, ?_⟩
  · rw [lookupText_upsert, if_pos rfl]
  · rw [length_upsert,
      if_pos (containsId_upsert_self store ⟨chunkId name 0, t1, name, 0⟩)]
  · exact nodup_upsert _ _ (nodup_upsert _ _ hnd)

theorem ingest_idempotent_witness :
    lookupText (ingest_file (ingest_file [] ("f") [("a")]) ("f") [("b")]) (chunkId ("f") 0) =
      some ("b") ∧
    (ingest_file (ingest_file [] ("f") [("a")]) ("f") [("b")]).length =
      (ingest_file [] ("f") [("a")]).length :=
  ⟨(ingest_idempotent [] ("f") ("a") ("b") (by decide)).1,
   (ingest_idempotent [] ("f") ("a") ("b") (by decide)).2.1⟩
